import Mathlib

/-!
Shallow embedding of `src/regex.py`, a minimal backtracking regex matcher
supporting literal characters, the wildcard `.`, and the quantifiers `*`
(zero or more) and `+` (one or more).

Strings are embedded as `List Char`, string indices as `Nat`
(`s.get? i` models the guarded Python indexing `s[i]`).
-/

namespace RegexDiscrete

/-- A token of `check_string`'s re-scan of the pattern: the atom character
paired with its optional quantifier character (`none` models Python's `""`,
`some c` the quantifier character `c ∈ {'*', '+'}`). -/
abbrev Tok := Char × Option Char

/-- The tokenizing `while` loop at the top of `RegexFSM.check_string`
(src/regex.py lines 138-148): each atom character is paired with an
immediately following `*`/`+` when present. -/
def tokenize : List Char → List Tok
  | [] => []
  | [c] => [(c, none)]
  | c :: d :: rest =>
    if d == '*' || d == '+' then (c, some d) :: tokenize rest
    else (c, none) :: tokenize (d :: rest)

/-- The inner predicate `ok` of `match` (src/regex.py lines 158-159):
`sym == "." or c == sym`. -/
def ok (sym c : Char) : Bool := sym == '.' || c == sym

/-- The greedy `while` scan shared by the `*` and `+` branches of `match`
(src/regex.py lines 164-169 and 174-181): starting at string index `indx`
with `l = s.drop indx` the remaining input, as long as the current character
satisfies `okf`, advance and try the continuation `cont` at the advanced
index, returning true at the first success. -/
def scanLoop (cont : Nat → Bool) (okf : Char → Bool) : List Char → Nat → Bool
  | [], _ => false
  | c :: l, indx =>
    if okf c then
      if cont (indx + 1) then true else scanLoop cont okf l (indx + 1)
    else false

/-- The recursive backtracking matcher `match` of `RegexFSM.check_string`
(src/regex.py lines 150-185).  The Python function takes `pattern_ind`
into the token list; here the remaining token suffix is passed instead
(the suffix `rest` at recursion depth `k` is `tokens.drop k`), and the
string index `sInd` is kept explicit as in the source. -/
def mtch (s : List Char) : List Tok → Nat → Bool
  | [], sInd => sInd == s.length
  | (sym, quant) :: rest, sInd =>
    if quant == some '*' then
      if mtch s rest sInd then true
      else scanLoop (fun i => mtch s rest i) (ok sym) (s.drop sInd) sInd
    else if quant == some '+' then
      match s.get? sInd with
      | some c =>
        if ok sym c then
          if mtch s rest (sInd + 1) then true
          else scanLoop (fun i => mtch s rest i) (ok sym) (s.drop (sInd + 1)) (sInd + 1)
        else false
      | none => false
    else
      match s.get? sInd with
      | some c => if ok sym c then mtch s rest (sInd + 1) else false
      | none => false

/-- Method `RegexFSM.check_string` (src/regex.py lines 134-187): tokenize the
stored pattern, then run the backtracking matcher from `(0, 0)`. -/
def check_string (pattern s : List Char) : Bool := mtch s (tokenize pattern) 0

/-! ## The state graph (`RegexFSM.__init__` and the `State` subclasses)

Python objects live on a heap; a `State` object is identified by its
address (a `Nat` index into a heap list).  `Option Nat` models a Python
reference that may be `None` (`__init_next_state` returns `None` for an
unrecognized character, and that `None` is appended and propagated). -/

/-- The tag distinguishing the `State` subclasses of src/regex.py
(StartState, TerminationState, DotState, AsciiState, StarState, PlusState),
with the constructor arguments `symbol` / `base` / `checking_state` kept
(the latter two are heap references). -/
inductive StateKind where
  | startState : StateKind
  | terminationState : StateKind
  | dotState : StateKind
  | asciiState (symbol : Char) : StateKind
  | starState (base : Option Nat) : StateKind
  | plusState (checking_state : Option Nat) : StateKind
deriving DecidableEq

/-- A `State` object: its subclass tag and its mutable `next_states` list
(entries are references, possibly `None`). -/
structure PyState where
  kind : StateKind
  next_states : List (Option Nat)
deriving DecidableEq

/-- Python's `str.isascii()` on a single character: code point below 128. -/
def isascii (c : Char) : Bool := c.toNat < 128

/-- Method `RegexFSM.__init_next_state` (src/regex.py lines 116-132): the kind of
the state created for pattern character `next_token`, given the reference
`tmp_next_state`; `none` models the implicit `return None` on a
non-ASCII character. -/
def init_next_state (next_token : Char) (tmp_next_state : Option Nat) :
    Option StateKind :=
  if next_token = '.' then some .dotState
  else if next_token = '*' then some (.starState tmp_next_state)
  else if next_token = '+' then some (.plusState tmp_next_state)
  else if isascii next_token then some (.asciiState next_token)
  else none

/-- Python's `prev.next_states.append(tgt)` on the heap: append `tgt` to the
`next_states` of the object at address `addr`. -/
def appendNext : List PyState → Nat → Option Nat → List PyState
  | [], _, _ => []
  | st :: h, 0, tgt => { st with next_states := st.next_states ++ [tgt] } :: h
  | st :: h, n + 1, tgt => st :: appendNext h n tgt

/-- The `for ch in regex_expr` loop of `RegexFSM.__init__`
(src/regex.py lines 107-111), threading the heap and the `prev_state` /
`tmp_state` references.  Returns `none` when the loop raises
(`prev_state.next_states` with `prev_state = None`); otherwise the final
heap and the final two references. -/
def buildStates (h : List PyState) (prev tmp : Option Nat) :
    List Char → Option (List PyState × Option Nat × Option Nat)
  | [] => some (h, prev, tmp)
  | ch :: rest =>
    match prev with
    | none => none
    | some p =>
      match init_next_state ch tmp with
      | some k =>
        let addr := h.length
        buildStates (appendNext (h ++ [⟨k, []⟩]) p (some addr))
          (some addr) (some addr) rest
      | none => buildStates (appendNext h p none) none none rest

/-- The heap at class-definition time: `RegexFSM.curr_state = StartState()`
(src/regex.py line 101) allocates a single shared `StartState` at
address 0.  Because it is a class attribute, every construction starts
from whatever this heap has become. -/
def classHeap : List PyState := [⟨.startState, []⟩]

/-- Constructor `RegexFSM.__init__` (src/regex.py lines 103-114) run on heap `h`:
`prev_state = tmp_state = self.curr_state` (the shared start state at
address 0), the construction loop, then
`prev_state.next_states.append(TerminationState())`.  Returns the final
heap and the termination state's address, or `none` when an
`AttributeError` is raised (a `None` returned by `__init_next_state` was
installed as `prev_state`). -/
def RegexFSM_init (h : List PyState) (regex_expr : List Char) :
    Option (List PyState × Nat) :=
  match buildStates h (some 0) (some 0) regex_expr with
  | none => none
  | some (hGraph, prev, _tmp) =>
    match prev with
    | none => none
    | some p =>
      let termAddr := hGraph.length
      some (appendNext (hGraph ++ [⟨.terminationState, []⟩]) p (some termAddr),
        termAddr)

/-! ## A fuel-indexed version of the matcher

`mtchFuel` is `match` with an explicit recursion budget: every recursive
call of `match` consumes one unit, and an exhausted budget yields `none`.
It makes termination of the source's recursion a provable statement:
a budget of one more than the number of remaining tokens always suffices
(`mtchFuel_eq_some`below). -/

/-- The greedy scan with a fallible continuation: `none` aborts the whole
search (an out-of-fuel recursive call). -/
def scanLoopFuel (cont : Nat → Option Bool) (okf : Char → Bool) :
    List Char → Nat → Option Bool
  | [], _ => some false
  | c :: l, indx =>
    if okf c then
      match cont (indx + 1) with
      | none => none
      | some true => some true
      | some false => scanLoopFuel cont okf l (indx + 1)
    else some false

/-- The matcher `match` with an explicit budget of nested recursive calls. -/
def mtchFuel (s : List Char) : Nat → List Tok → Nat → Option Bool
  | 0, _, _ => none
  | fuel + 1, tokens, sInd =>
    match tokens with
    | [] => some (sInd == s.length)
    | (sym, quant) :: rest =>
      if quant == some '*' then
        match mtchFuel s fuel rest sInd with
        | none => none
        | some true => some true
        | some false =>
          scanLoopFuel (fun i => mtchFuel s fuel rest i) (ok sym)
            (s.drop sInd) sInd
      else if quant == some '+' then
        match s.get? sInd with
        | some c =>
          if ok sym c then
            match mtchFuel s fuel rest (sInd + 1) with
            | none => none
            | some true => some true
            | some false =>
              scanLoopFuel (fun i => mtchFuel s fuel rest i) (ok sym)
                (s.drop (sInd + 1)) (sInd + 1)
          else some false
        | none => some false
      else
        match s.get? sInd with
        | some c =>
          if ok sym c then mtchFuel s fuel rest (sInd + 1) else some false
        | none => some false

/-! ## The immediate recursive calls of `match`

`childCalls` records, for one invocation of `match`, the argument pairs of
the recursive calls it actually performs, in order, honouring the source's
short-circuiting (the greedy scans stop at the first successful
continuation).  A call is recorded as `(rest, i)`: the token suffix passed
on (the source's `pattern_ind + 1`) and the string index passed on. -/

/-- The string indices at which the greedy `while` scan invokes the
continuation, in order, stopping after the first success. -/
def scanCalls (cont : Nat → Bool) (okf : Char → Bool) :
    List Char → Nat → List Nat
  | [], _ => []
  | c :: l, indx =>
    if okf c then
      if cont (indx + 1) then [indx + 1]
      else (indx + 1) :: scanCalls cont okf l (indx + 1)
    else []

/-- The immediate recursive calls `match` performs from configuration
`(tokens, sInd)`, mirroring src/regex.py lines 161-185. -/
def childCalls (s : List Char) : List Tok → Nat → List (List Tok × Nat)
  | [], _ => []
  | (sym, quant) :: rest, sInd =>
    if quant == some '*' then
      (rest, sInd) ::
        (if mtch s rest sInd then []
         else (scanCalls (fun i => mtch s rest i) (ok sym)
            (s.drop sInd) sInd).map (fun i => (rest, i)))
    else if quant == some '+' then
      match s.get? sInd with
      | some c =>
        if ok sym c then
          (rest, sInd + 1) ::
            (if mtch s rest (sInd + 1) then []
             else (scanCalls (fun i => mtch s rest i) (ok sym)
                (s.drop (sInd + 1)) (sInd + 1)).map (fun i => (rest, i)))
        else []
      | none => []
    else
      match s.get? sInd with
      | some c => if ok sym c then [(rest, sInd + 1)] else []
      | none => []

/-- The pattern text a token list stands for: each atom character followed
by its quantifier character when present. -/
def tokenConcat : List Tok → List Char
  | [] => []
  | (c, none) :: rest => c :: tokenConcat rest
  | (c, some q) :: rest => c :: q :: tokenConcat rest

/-! ## Unfolding lemmas for the matcher -/

theorem mtch_nil (s : List Char) (sInd : Nat) :
    mtch s [] sInd = (sInd == s.length) := rfl

theorem mtch_cons_star (s : List Char) (sym : Char) (rest : List Tok)
    (sInd : Nat) :
    mtch s ((sym, some '*') :: rest) sInd =
      (if mtch s rest sInd then true
       else scanLoop (fun i => mtch s rest i) (ok sym) (s.drop sInd) sInd) :=
  rfl

theorem mtch_cons_plus (s : List Char) (sym : Char) (rest : List Tok)
    (sInd : Nat) :
    mtch s ((sym, some '+') :: rest) sInd =
      (match s.get? sInd with
       | some c =>
         if ok sym c then
           if mtch s rest (sInd + 1) then true
           else scanLoop (fun i => mtch s rest i) (ok sym)
             (s.drop (sInd + 1)) (sInd + 1)
         else false
       | none => false) := rfl

theorem mtch_cons_none (s : List Char) (sym : Char) (rest : List Tok)
    (sInd : Nat) :
    mtch s ((sym, none) :: rest) sInd =
      (match s.get? sInd with
       | some c => if ok sym c then mtch s rest (sInd + 1) else false
       | none => false) := rfl

/-! ## Claim theorems -/

/-- Claim C1: for the compiled pattern `"a*4.+hi"`, `check_string` returns
`true` on `"aaaaaa4uhi"` and `"4uhi"`, and `false` on `"meow"` and
`"pupupuuuu"` (the four demonstration calls of src/regex.py lines
190-198). -/
theorem check_string_demo_scenarios :
    (RegexFSM_init classHeap "a*4.+hi".data).isSome = true ∧
    check_string "a*4.+hi".data "aaaaaa4uhi".data = true ∧
    check_string "a*4.+hi".data "4uhi".data = true ∧
    check_string "a*4.+hi".data "meow".data = false ∧
    check_string "a*4.+hi".data "pupupuuuu".data = false := by
  refine ⟨by decide, by decide, by decide, by decide, by decide⟩

/-- Claim C9: the token list `check_string` derives from a pattern is a
partition of the pattern: concatenating each token's atom character
followed by its quantifier character (empty when the quantifier is none)
yields the pattern back. -/
theorem tokenize_partitions_pattern (p : List Char) :
    tokenConcat (tokenize p) = p := by
  induction p using tokenize.induct with
  | case1 => rfl
  | case2 c => rfl
  | case3 c d rest hq ih => simp only [tokenize, if_pos hq, tokenConcat, ih]
  | case4 c d rest hq ih => simp only [tokenize, if_neg hq, tokenConcat, ih]

/-- Claim C7 (evaluation at the failing input): `curr_state` is a class
attribute (src/regex.py line 101), so every `RegexFSM` shares the one
`StartState` at address 0.  Constructing `RegexFSM("a")` from the pristine
class heap yields the simple path Start → Ascii 'a' → Termination (each
non-final node with exactly one outgoing edge).  Constructing a second
machine, `RegexFSM("b")`, appends the new chain to the *same* start node:
afterwards the start node has two outgoing edges (`some 1` and `some 3`),
so the first instance's graph has been mutated after construction and the
node set reachable from Start is no longer a simple path, contradicting
the claimed immutability and exclusive ownership. -/
theorem regexFSM_second_init_mutates_first :
    RegexFSM_init classHeap ['a'] =
      some ([⟨.startState, [some 1]⟩, ⟨.asciiState 'a', [some 2]⟩,
        ⟨.terminationState, []⟩], 2) ∧
    RegexFSM_init [⟨.startState, [some 1]⟩, ⟨.asciiState 'a', [some 2]⟩,
        ⟨.terminationState, []⟩] ['b'] =
      some ([⟨.startState, [some 1, some 3]⟩, ⟨.asciiState 'a', [some 2]⟩,
        ⟨.terminationState, []⟩, ⟨.asciiState 'b', [some 4]⟩,
        ⟨.terminationState, []⟩], 4) := by
  exact ⟨by decide, by decide⟩

theorem scanCalls_gt (cont : Nat → Bool) (okf : Char → Bool) :
    ∀ (l : List Char) (indx j : Nat),
      j ∈ scanCalls cont okf l indx → indx < j := by
  intro l
  induction l with
  | nil => intro indx j h; simp [scanCalls] at h
  | cons c l' ih =>
    intro indx j h
    simp only [scanCalls] at h
    by_cases hc : okf c = true
    · rw [if_pos hc] at h
      by_cases hcont : cont (indx + 1) = true
      · rw [if_pos hcont] at h
        have : j = indx + 1 := by simpa using h
        omega
      · rw [if_neg hcont] at h
        rcases List.mem_cons.mp h with rfl | h'
        · omega
        · have := ih (indx + 1) j h'; omega
    · rw [if_neg hc] at h
      simp at h

/-- Claim C8 (amended): every recursive call of `match` passes on the
token suffix `rest` (so `pattern_index` increases by exactly one) and
never decreases `string_index`; every call strictly increases
`string_index` except the zero-repetition call of a quantifier-`*` token,
which keeps it unchanged. -/
theorem childCalls_increase (s : List Char) (sym : Char) (quant : Option Char)
    (rest : List Tok) (sInd : Nat) (r : List Tok) (i : Nat)
    (h : (r, i) ∈ childCalls s ((sym, quant) :: rest) sInd) :
    r = rest ∧ sInd ≤ i ∧ (sInd < i ∨ (quant = some '*' ∧ i = sInd)) := by
  simp only [childCalls] at h
  by_cases h1 : (quant == some '*') = true
  · rw [if_pos h1] at h
    rcases List.mem_cons.mp h with heq | h'
    · obtain ⟨rfl, rfl⟩ : r = rest ∧ i = sInd := by
        injection heq with h2 h3; exact ⟨h2, h3⟩
      exact ⟨rfl, Nat.le_refl _, Or.inr ⟨by simpa using h1, rfl⟩⟩
    · by_cases hm : mtch s rest sInd = true
      · rw [if_pos hm] at h'; simp at h'
      · rw [if_neg hm] at h'
        obtain ⟨j, hj, hji⟩ := List.mem_map.mp h'
        obtain ⟨rfl, rfl⟩ : rest = r ∧ j = i := by
          injection hji with h2 h3; exact ⟨h2, h3⟩
        have := scanCalls_gt (fun i => mtch s rest i) (ok sym)
          (s.drop sInd) sInd j hj
        exact ⟨rfl, Nat.le_of_lt this, Or.inl this⟩
  · rw [if_neg h1] at h
    by_cases h2 : (quant == some '+') = true
    · rw [if_pos h2] at h
      cases hg : s.get? sInd with
      | none => simp only [hg] at h; simp at h
      | some c =>
        simp only [hg] at h
        by_cases hok : ok sym c = true
        · rw [if_pos hok] at h
          rcases List.mem_cons.mp h with heq | h'
          · obtain ⟨rfl, rfl⟩ : r = rest ∧ i = sInd + 1 := by
              injection heq with ha hb; exact ⟨ha, hb⟩
            exact ⟨rfl, Nat.le_succ _, Or.inl (Nat.lt_succ_self _)⟩
          · by_cases hm : mtch s rest (sInd + 1) = true
            · rw [if_pos hm] at h'; simp at h'
            · rw [if_neg hm] at h'
              obtain ⟨j, hj, hji⟩ := List.mem_map.mp h'
              obtain ⟨rfl, rfl⟩ : rest = r ∧ j = i := by
                injection hji with ha hb; exact ⟨ha, hb⟩
              have := scanCalls_gt (fun i => mtch s rest i) (ok sym)
                (s.drop (sInd + 1)) (sInd + 1) j hj
              exact ⟨rfl, by omega, Or.inl (by omega)⟩
        · rw [if_neg hok] at h; simp at h
    · rw [if_neg h2] at h
      cases hg : s.get? sInd with
      | none => simp only [hg] at h; simp at h
      | some c =>
        simp only [hg] at h
        by_cases hok : ok sym c = true
        · rw [if_pos hok] at h
          simp only [List.mem_singleton] at h
          obtain ⟨rfl, rfl⟩ : r = rest ∧ i = sInd + 1 := by
            injection h with ha hb; exact ⟨ha, hb⟩
          exact ⟨rfl, Nat.le_succ _, Or.inl (Nat.lt_succ_self _)⟩
        · rw [if_neg hok] at h; simp at h

/-- Claim C8 (counterexample to the claim as stated): the quantifier-`*`
token of pattern `"a*"` makes its zero-repetition recursive call with
`string_index` unchanged (`0`), although it is not a quantifier-none
token — so not every recursive call of `match` strictly increases
`string_index`. -/
theorem childCalls_star_zero_width :
    (([], 0) ∈ childCalls [] [('a', some '*')] 0) ∧
    (some '*' ≠ (none : Option Char)) ∧ ¬ (0 < 0) := by
  exact ⟨by decide, by decide, by omega⟩

/-- Witness for `childCalls_increase` at the concrete configuration of
pattern `"a+"` against input `"a"`. -/
theorem childCalls_increase_ev :
    [] = ([] : List Tok) ∧ 0 ≤ 1 ∧
      (0 < 1 ∨ (some '+' = some '*' ∧ 1 = 0)) :=
  childCalls_increase ['a'] 'a' (some '+') [] 0 [] 1 (by decide)

theorem init_next_state_isSome_of_ascii (ch : Char) (tmp : Option Nat)
    (h : isascii ch = true) : ∃ k, init_next_state ch tmp = some k := by
  unfold init_next_state
  split_ifs with h1 h2 h3
  · exact ⟨_, rfl⟩
  · exact ⟨_, rfl⟩
  · exact ⟨_, rfl⟩
  · exact ⟨_, rfl⟩

theorem init_next_state_eq_none_of_bad (ch : Char) (tmp : Option Nat)
    (h : isascii ch = false) : init_next_state ch tmp = none := by
  have h1 : ch ≠ '.' := by rintro rfl; simp [isascii] at h
  have h2 : ch ≠ '*' := by rintro rfl; simp [isascii] at h
  have h3 : ch ≠ '+' := by rintro rfl; simp [isascii] at h
  unfold init_next_state
  rw [if_neg h1, if_neg h2, if_neg h3, if_neg (by simp [h])]

theorem buildStates_ascii (chars : List Char) :
    ∀ (h : List PyState) (p t : Nat), (∀ c ∈ chars, isascii c = true) →
      ∃ h' q t', buildStates h (some p) (some t) chars = some (h', some q, t') := by
  induction chars with
  | nil => exact fun h p t _ => ⟨h, p, some t, rfl⟩
  | cons ch rest ih =>
    intro h p t hall
    obtain ⟨k, hk⟩ :=
      init_next_state_isSome_of_ascii ch (some t) (hall ch (by simp))
    simp only [buildStates, hk]
    exact ih _ _ _ (fun c hc => hall c (List.mem_cons_of_mem _ hc))

theorem buildStates_bad (chars : List Char) :
    ∀ (h : List PyState) (p t : Nat), (∃ c ∈ chars, isascii c = false) →
      buildStates h (some p) (some t) chars = none ∨
        ∃ h', buildStates h (some p) (some t) chars = some (h', none, none) := by
  induction chars with
  | nil => rintro h p t ⟨c, hc, -⟩; simp at hc
  | cons ch rest ih =>
    rintro h p t ⟨c, hmem, hbad⟩
    by_cases hch : isascii ch = true
    · have hcrest : c ∈ rest := by
        rcases List.mem_cons.mp hmem with rfl | hr
        · rw [hch] at hbad; cases hbad
        · exact hr
      obtain ⟨k, hk⟩ := init_next_state_isSome_of_ascii ch (some t) hch
      simp only [buildStates, hk]
      exact ih _ _ _ ⟨c, hcrest, hbad⟩
    · have hnone := init_next_state_eq_none_of_bad ch (some t)
        (Bool.eq_false_iff.mpr hch)
      simp only [buildStates, hnone]
      cases rest with
      | nil => exact Or.inr ⟨_, rfl⟩
      | cons d rest' => exact Or.inl rfl

/-- Claim C5: construction of a `RegexFSM` fails (the construction-time
error the spec names `InvalidPatternSymbol`; in the code
`__init_next_state` returns `None` and the subsequent
`next_states` attribute access raises) exactly when the pattern contains
a character that is not ASCII — equivalently, it succeeds exactly when
every pattern character is ASCII.  (`'.'`, `'*'`, `'+'` are themselves
ASCII, and a non-ASCII character can only stand in atom position.) -/
theorem regexFSM_init_isSome_iff (h : List PyState) (p : List Char) :
    (RegexFSM_init h p).isSome = true ↔ ∀ c ∈ p, isascii c = true := by
  constructor
  · intro hs
    by_contra hnot
    push_neg at hnot
    obtain ⟨c, hmem, hc⟩ := hnot
    have hbad : isascii c = false := Bool.eq_false_iff.mpr hc
    rcases buildStates_bad p h 0 0 ⟨c, hmem, hbad⟩ with hf | ⟨h', hf⟩
    · rw [RegexFSM_init, hf] at hs; simp at hs
    · rw [RegexFSM_init, hf] at hs; simp at hs
  · intro hall
    obtain ⟨h', q, t', hb⟩ := buildStates_ascii p h 0 0 hall
    rw [RegexFSM_init, hb]
    simp

/-- Witness for `regexFSM_init_isSome_iff`: the all-ASCII pattern `"a*"`
compiles from the pristine class heap. -/
theorem regexFSM_init_isSome_iff_ev :
    (RegexFSM_init classHeap "a*".data).isSome = true :=
  (regexFSM_init_isSome_iff classHeap "a*".data).mpr (by decide)

theorem ok_eq_true_iff {a c : Char} : ok a c = true ↔ (a = '.' ∨ c = a) := by
  simp [ok]

theorem mtch_cons_none_of_get (s : List Char) (sym : Char) (rest : List Tok)
    (sInd : Nat) (c : Char) (hg : s.get? sInd = some c) :
    mtch s ((sym, none) :: rest) sInd =
      if ok sym c then mtch s rest (sInd + 1) else false := by
  rw [mtch_cons_none, hg]

theorem mtch_cons_none_of_none (s : List Char) (sym : Char) (rest : List Tok)
    (sInd : Nat) (hg : s.get? sInd = none) :
    mtch s ((sym, none) :: rest) sInd = false := by
  rw [mtch_cons_none, hg]

theorem mtch_cons_plus_of_get (s : List Char) (sym : Char) (rest : List Tok)
    (sInd : Nat) (c : Char) (hg : s.get? sInd = some c) :
    mtch s ((sym, some '+') :: rest) sInd =
      (if ok sym c then
        if mtch s rest (sInd + 1) then true
        else scanLoop (fun i => mtch s rest i) (ok sym)
          (s.drop (sInd + 1)) (sInd + 1)
       else false) := by
  rw [mtch_cons_plus, hg]

theorem mtch_cons_plus_of_none (s : List Char) (sym : Char) (rest : List Tok)
    (sInd : Nat) (hg : s.get? sInd = none) :
    mtch s ((sym, some '+') :: rest) sInd = false := by
  rw [mtch_cons_plus, hg]

theorem tokenize_no_quant (p : List Char)
    (h : ∀ c ∈ p, c ≠ '*' ∧ c ≠ '+') :
    tokenize p = p.map (fun c => (c, none)) := by
  induction p using tokenize.induct with
  | case1 => rfl
  | case2 c => rfl
  | case3 c d rest hq ih =>
    exfalso
    have hd := h d (by simp)
    rcases Bool.or_eq_true _ _ |>.mp hq with h1 | h1
    · exact hd.1 (by simpa using h1)
    · exact hd.2 (by simpa using h1)
  | case4 c d rest hq ih =>
    simp only [tokenize, if_neg hq, List.map_cons]
    exact congrArg _ (ih fun x hx => h x (List.mem_cons_of_mem _ hx))

theorem mtch_none_tokens (s : List Char) (p : List Char) :
    ∀ sInd, sInd ≤ s.length →
      (mtch s (p.map fun c => (c, none)) sInd = true ↔
        List.Forall₂ (fun a c => a = '.' ∨ c = a) p (s.drop sInd)) := by
  induction p with
  | nil =>
    intro sInd hle
    rw [List.map_nil, mtch_nil, List.forall₂_nil_left_iff]
    constructor
    · intro hb
      have hEq : sInd = s.length := by simpa using hb
      rw [hEq, List.drop_length]
    · intro hd
      have hlen : (s.drop sInd).length = 0 := by rw [hd]; rfl
      rw [List.length_drop] at hlen
      have : sInd = s.length := by omega
      simp [this]
  | cons a p' ih =>
    intro sInd hle
    rw [List.map_cons]
    cases hg : s.get? sInd with
    | none =>
      have hge : s.length ≤ sInd := List.get?_eq_none.mp hg
      have hEq : sInd = s.length := Nat.le_antisymm hle hge
      rw [mtch_cons_none_of_none s a _ sInd hg, hEq, List.drop_length]
      constructor
      · intro hb; cases hb
      · intro hd; cases hd
    | some c =>
      have hlt : sInd < s.length := by
        by_contra hnot
        rw [List.get?_eq_none.mpr (by omega)] at hg
        cases hg
      rw [mtch_cons_none_of_get s a _ sInd c hg,
        List.drop_eq_getElem_cons hlt]
      have hc : s[sInd] = c := by
        have := List.get?_eq_getElem? s sInd
        rw [hg, List.getElem?_eq_getElem hlt] at this
        exact (Option.some.injEq _ _ ▸ this).symm
      rw [hc, List.forall₂_cons]
      by_cases hok : ok a c = true
      · rw [if_pos hok]
        rw [ih (sInd + 1) hlt]
        simp [ok_eq_true_iff.mp hok]
      · rw [if_neg hok]
        have : ¬ (a = '.' ∨ c = a) := fun hor => hok (ok_eq_true_iff.mpr hor)
        simp [this]

/-- Claim C2: for a pattern with no `'*'` and no `'+'`, `check_string`
accepts exactly the inputs of the same length as the pattern that agree
with it at every position (with `'.'` matching any character); in
particular the empty pattern accepts only the empty input. -/
theorem check_string_no_quantifiers (p s : List Char)
    (h : ∀ c ∈ p, c ≠ '*' ∧ c ≠ '+') :
    check_string p s = true ↔
      (s.length = p.length ∧
        ∀ i < p.length, p.getD i 'a' = '.' ∨ s.getD i 'a' = p.getD i 'a') := by
  rw [check_string, tokenize_no_quant p h,
    mtch_none_tokens s p 0 (Nat.zero_le _), List.drop_zero,
    List.forall₂_iff_get]
  constructor
  · rintro ⟨hlen, hall⟩
    refine ⟨hlen.symm, ?_⟩
    intro i hi
    have hi2 : i < s.length := hlen ▸ hi
    have := hall i hi hi2
    rw [List.getD_eq_getElem p 'a' hi, List.getD_eq_getElem s 'a' hi2]
    simpa using this
  · rintro ⟨hlen, hall⟩
    refine ⟨hlen.symm, ?_⟩
    intro i h1 h2
    have := hall i h1
    rw [List.getD_eq_getElem p 'a' h1, List.getD_eq_getElem s 'a' h2] at this
    simpa using this

/-- Witness for `check_string_no_quantifiers`: the empty pattern accepts
the empty input and rejects `"x"`. -/
theorem check_string_no_quantifiers_ev :
    check_string [] [] = true ∧ check_string [] ['x'] = false := by
  constructor
  · exact (check_string_no_quantifiers [] [] (by simp)).mpr
      ⟨rfl, fun i hi => absurd hi (by simp)⟩
  · cases hb : check_string [] ['x'] with
    | false => rfl
    | true =>
      exact absurd ((check_string_no_quantifiers [] ['x'] (by simp)).mp hb).1
        (by decide)

theorem scanLoop_of_all_ok (cont : Nat → Bool) (okf : Char → Bool) :
    ∀ (l : List Char) (indx : Nat), l ≠ [] → (∀ c ∈ l, okf c = true) →
      cont (indx + l.length) = true → scanLoop cont okf l indx = true := by
  intro l
  induction l with
  | nil => intro indx hne _ _; exact absurd rfl hne
  | cons c l' ih =>
    intro indx _ hall hcont
    have hc : okf c = true := hall c (by simp)
    cases l' with
    | nil =>
      have h1 : cont (indx + 1) = true := by simpa using hcont
      simp [scanLoop, hc, h1]
    | cons d l'' =>
      by_cases hjump : cont (indx + 1) = true
      · simp [scanLoop, hc, hjump]
      · have harg : (indx + 1) + (d :: l'').length =
            indx + (c :: d :: l'').length := by
          simp only [List.length_cons]; omega
        have hrec : scanLoop cont okf (d :: l'') (indx + 1) = true :=
          ih (indx + 1) (by simp)
            (fun x hx => hall x (List.mem_cons_of_mem _ hx))
            (by rw [harg]; exact hcont)
        show (if okf c then
            (if cont (indx + 1) then true
             else scanLoop cont okf (d :: l'') (indx + 1))
          else false) = true
        rw [if_pos hc, if_neg hjump, hrec]

/-- Claim C3: for any ASCII atom `X`, the two-character pattern `X*`
compiles, `check_string` accepts the empty input, and it accepts every
input all of whose characters satisfy `X`'s acceptance predicate `ok X`
(`X = '.'` or the character equals `X`). -/
theorem check_string_star_accepts (X : Char) (hX : isascii X = true) :
    (RegexFSM_init classHeap [X, '*']).isSome = true ∧
    check_string [X, '*'] [] = true ∧
    ∀ s : List Char, (∀ c ∈ s, ok X c = true) →
      check_string [X, '*'] s = true := by
  refine ⟨?_, rfl, ?_⟩
  · refine (regexFSM_init_isSome_iff classHeap [X, '*']).mpr ?_
    intro c hc
    rcases List.mem_cons.mp hc with rfl | hc'
    · exact hX
    · obtain rfl := List.mem_singleton.mp hc'
      decide
  · intro s hs
    cases s with
    | nil => rfl
    | cons c s' =>
      have htok : tokenize [X, '*'] = [(X, some '*')] := rfl
      rw [check_string, htok, mtch_cons_star]
      have hm : mtch (c :: s') [] 0 = false := by
        rw [mtch_nil]
        simp
      rw [hm, if_neg (by simp)]
      refine scanLoop_of_all_ok _ _ (c :: s') 0 (by simp) hs ?_
      show mtch (c :: s') [] (0 + (c :: s').length) = true
      rw [mtch_nil]
      simp

/-- Witness for `check_string_star_accepts` at `X = 'a'` with inputs `""`
and `"aaaa"`. -/
theorem check_string_star_accepts_ev :
    check_string ['a', '*'] [] = true ∧
    check_string ['a', '*'] ['a', 'a', 'a', 'a'] = true :=
  ⟨(check_string_star_accepts 'a' (by decide)).2.1,
    (check_string_star_accepts 'a' (by decide)).2.2 ['a', 'a', 'a', 'a']
      (by decide)⟩

/-- Claim C4: for any ASCII atom `X`, the two-character pattern `X+`
compiles, `check_string` rejects the empty input, and it accepts every
non-empty input all of whose characters satisfy `X`'s acceptance
predicate `ok X` (in particular one and three repetitions of a matching
character, see the witness). -/
theorem check_string_plus_accepts (X : Char) (hX : isascii X = true) :
    (RegexFSM_init classHeap [X, '+']).isSome = true ∧
    check_string [X, '+'] [] = false ∧
    ∀ s : List Char, s ≠ [] → (∀ c ∈ s, ok X c = true) →
      check_string [X, '+'] s = true := by
  refine ⟨?_, rfl, ?_⟩
  · refine (regexFSM_init_isSome_iff classHeap [X, '+']).mpr ?_
    intro c hc
    rcases List.mem_cons.mp hc with rfl | hc'
    · exact hX
    · obtain rfl := List.mem_singleton.mp hc'
      decide
  · intro s hne hs
    cases s with
    | nil => exact absurd rfl hne
    | cons c s' =>
      have htok : tokenize [X, '+'] = [(X, some '+')] := rfl
      rw [check_string, htok, mtch_cons_plus_of_get (c :: s') X [] 0 c rfl]
      rw [if_pos (hs c (by simp))]
      cases s' with
      | nil =>
        have h1 : mtch [c] [] (0 + 1) = true := by
          rw [mtch_nil]
          simp
        rw [h1, if_pos rfl]
      | cons d s'' =>
        have h1 : mtch (c :: d :: s'') [] (0 + 1) = false := by
          rw [mtch_nil]
          simp only [List.length_cons, beq_eq_false_iff_ne, ne_eq]
          omega
        rw [h1, if_neg (by simp)]
        refine scanLoop_of_all_ok _ _ (d :: s'') (0 + 1) (by simp)
          (fun x hx => hs x (List.mem_cons_of_mem _ hx)) ?_
        show mtch (c :: d :: s'') [] ((0 + 1) + (d :: s'').length) = true
        rw [mtch_nil]
        simp only [List.length_cons, beq_iff_eq]
        omega

/-- Witness for `check_string_plus_accepts` at `X = 'b'`: the empty input
is rejected, one and three repetitions of `'b'` are accepted. -/
theorem check_string_plus_accepts_ev :
    check_string ['b', '+'] [] = false ∧
    check_string ['b', '+'] ['b'] = true ∧
    check_string ['b', '+'] ['b', 'b', 'b'] = true :=
  ⟨(check_string_plus_accepts 'b' (by decide)).2.1,
    (check_string_plus_accepts 'b' (by decide)).2.2 ['b'] (by simp)
      (by decide),
    (check_string_plus_accepts 'b' (by decide)).2.2 ['b', 'b', 'b'] (by simp)
      (by decide)⟩

/-- Claim C10: a `*` or `+` in atom position — first character, or right
after a consumed quantifier — is accepted by compilation and treated by
the matcher as a literal: pattern `"a**"` (second `*` is in atom
position) compiles and matches the input `"a*"`, and the one-character
pattern `"*"` compiles and accepts exactly the input `"*"`. -/
theorem star_in_atom_position_is_literal :
    (RegexFSM_init classHeap "a**".data).isSome = true ∧
    (RegexFSM_init classHeap "*".data).isSome = true ∧
    check_string "a**".data "a*".data = true ∧
    ∀ s : List Char, (check_string "*".data s = true ↔ s = ['*']) := by
  refine ⟨by decide, by decide, by decide, ?_⟩
  intro s
  have hbase := mtch_none_tokens s ['*'] 0 (Nat.zero_le _)
  rw [List.drop_zero] at hbase
  have hcs : check_string "*".data s =
      mtch s (['*'].map fun c => (c, none)) 0 := rfl
  rw [hcs, hbase]
  constructor
  · intro hf
    cases hf with
    | cons hrel hnil =>
      cases hnil
      rcases hrel with h1 | h2
      · exact absurd h1 (by decide)
      · rw [h2]
  · rintro rfl
    exact List.Forall₂.cons (Or.inr rfl) List.Forall₂.nil

/-- Witness for `star_in_atom_position_is_literal`: the pattern `"*"`
accepts the input `"*"`. -/
theorem star_in_atom_position_is_literal_ev :
    check_string "*".data ['*'] = true :=
  (star_in_atom_position_is_literal.2.2.2 ['*']).mpr rfl

theorem scanLoopFuel_eq_some (contF : Nat → Option Bool) (cont : Nat → Bool)
    (hc : ∀ i, contF i = some (cont i)) (okf : Char → Bool) :
    ∀ (l : List Char) (indx : Nat),
      scanLoopFuel contF okf l indx = some (scanLoop cont okf l indx) := by
  intro l
  induction l with
  | nil => intro indx; rfl
  | cons c l' ih =>
    intro indx
    show (if okf c then
        (match contF (indx + 1) with
         | none => none
         | some true => some true
         | some false => scanLoopFuel contF okf l' (indx + 1))
      else some false) =
      some (if okf c then
        (if cont (indx + 1) then true else scanLoop cont okf l' (indx + 1))
      else false)
    by_cases hokc : okf c = true
    · rw [if_pos hokc, if_pos hokc, hc (indx + 1)]
      cases hcv : cont (indx + 1) with
      | true => rfl
      | false => exact ih (indx + 1)
    · rw [if_neg hokc, if_neg hokc]

theorem mtchFuel_eq_some (s : List Char) :
    ∀ (fuel : Nat) (tokens : List Tok) (sInd : Nat), tokens.length < fuel →
      mtchFuel s fuel tokens sInd = some (mtch s tokens sInd) := by
  intro fuel
  induction fuel with
  | zero => intro tokens sInd h; exact absurd h (Nat.not_lt_zero _)
  | succ fuel ih =>
    intro tokens sInd h
    cases tokens with
    | nil => rfl
    | cons tk rest =>
      obtain ⟨sym, quant⟩ := tk
      have hrest : rest.length < fuel := by
        simp only [List.length_cons] at h; omega
      have ihrest : ∀ i, mtchFuel s fuel rest i = some (mtch s rest i) :=
        fun i => ih rest i hrest
      simp only [mtchFuel, mtch]
      by_cases h1 : (quant == some '*') = true
      · rw [if_pos h1, if_pos h1, ihrest sInd]
        cases hv : mtch s rest sInd with
        | true => rfl
        | false =>
          exact scanLoopFuel_eq_some _ _ ihrest (ok sym) (s.drop sInd) sInd
      · rw [if_neg h1, if_neg h1]
        by_cases h2 : (quant == some '+') = true
        · rw [if_pos h2, if_pos h2]
          cases hg : s.get? sInd with
          | none => rfl
          | some c =>
            show (if ok sym c = true then
                (match mtchFuel s fuel rest (sInd + 1) with
                 | none => none
                 | some true => some true
                 | some false =>
                   scanLoopFuel (fun i => mtchFuel s fuel rest i) (ok sym)
                     (List.drop (sInd + 1) s) (sInd + 1))
              else some false) =
              some (if ok sym c = true then
                (if mtch s rest (sInd + 1) = true then true
                 else scanLoop (fun i => mtch s rest i) (ok sym)
                   (List.drop (sInd + 1) s) (sInd + 1))
              else false)
            by_cases hokc : ok sym c = true
            · rw [if_pos hokc, if_pos hokc, ihrest (sInd + 1)]
              cases hv : mtch s rest (sInd + 1) with
              | true => rfl
              | false =>
                exact scanLoopFuel_eq_some _ _ ihrest (ok sym)
                  (s.drop (sInd + 1)) (sInd + 1)
            · rw [if_neg hokc, if_neg hokc]
        · rw [if_neg h2, if_neg h2]
          cases hg : s.get? sInd with
          | none => rfl
          | some c =>
            show (if ok sym c = true then mtchFuel s fuel rest (sInd + 1)
                else some false) =
              some (if ok sym c = true then mtch s rest (sInd + 1) else false)
            by_cases hokc : ok sym c = true
            · rw [if_pos hokc, if_pos hokc]
              exact ihrest (sInd + 1)
            · rw [if_neg hokc, if_neg hokc]

/-- Claim C6: for every pattern and input, the matcher's recursion
terminates and yields a definite boolean: running `match` with an
explicit recursion budget of one more than the number of tokens (every
recursive call strictly consumes tokens) never exhausts the budget and
returns exactly `check_string`'s boolean — the search never fails or
diverges. -/
theorem check_string_total (p s : List Char) :
    mtchFuel s ((tokenize p).length + 1) (tokenize p) 0 =
      some (check_string p s) :=
  mtchFuel_eq_some s ((tokenize p).length + 1) (tokenize p) 0
    (Nat.lt_succ_self _)

end RegexDiscrete
